import Mathlib

/-!
A verification development for the command-interpretation core of the
PowerShell To Go emulator (src/app.js).  JavaScript strings are modelled as
Lean `String` (a list of characters); JavaScript objects used as string-keyed
dictionaries are modelled as finite-support functions `String → Option _`;
JavaScript numbers are modelled by exact rational arithmetic
(unnormalized integer numerator/denominator pairs, denoted into `ℚ` in
theorem statements), with `Option` capturing the NaN signal.  ASCII case conversion models `toUpperCase` /
`toLowerCase` on the drive letters and operator names actually involved.
-/

namespace PSG

/-! ## Character classes of the JavaScript regular expressions -/

/-- The characters matched by the JavaScript `\s` class (whitespace). -/
def wsList : List Char :=
  [' ', '\t', '\n', '\x0b', '\x0c', '\r', '\u00A0', '\u1680',
   '\u2000', '\u2001', '\u2002', '\u2003', '\u2004', '\u2005', '\u2006',
   '\u2007', '\u2008', '\u2009', '\u200A', '\u2028', '\u2029', '\u202F',
   '\u205F', '\u3000', '\uFEFF']

def jsWs (c : Char) : Bool := wsList.contains c

/-- ASCII-range model of `String.prototype.toLowerCase` on one character. -/
def asciiLower (c : Char) : Char :=
  if 65 ≤ c.toNat ∧ c.toNat ≤ 90 then Char.ofNat (c.toNat + 32) else c

/-- ASCII-range model of `String.prototype.toUpperCase` on one character. -/
def asciiUpper (c : Char) : Char :=
  if 97 ≤ c.toNat ∧ c.toNat ≤ 122 then Char.ofNat (c.toNat - 32) else c

/-- The `\d` class: ASCII decimal digits. -/
def isDigitChar (c : Char) : Bool := 48 ≤ c.toNat && c.toNat ≤ 57

/-- `String.prototype.trim`: strip leading and trailing whitespace. -/
def jsTrim (s : String) : String :=
  ⟨((s.data.dropWhile jsWs).reverse.dropWhile jsWs).reverse⟩

def strLower (s : String) : String := ⟨s.data.map asciiLower⟩

/-- `a.startsWith(b)` on strings. -/
def strStartsWith (s pre : String) : Bool := pre.data.isPrefixOf s.data

/-! ## `normPath` (src/app.js lines 74-82) -/

/-- First step of `normPath`: `p.replace(/\//g, '\\')`. -/
def mapSlash (l : List Char) : List Char :=
  l.map (fun c => if c = '/' then '\\' else c)

/-- Second step of `normPath`: `p.replace(/\\+/g, '\\')` — collapse every
run of backslashes to a single backslash (a backslash followed by another
backslash is dropped, keeping the last of each run). -/
def collapseBS : List Char → List Char
  | [] => []
  | c :: t => if c = '\\' ∧ t.head? = some '\\' then collapseBS t else c :: collapseBS t

/-- Third step: `if (p.endsWith('\\') && p.length > 3) p = p.slice(0, -1)`. -/
def dropTrail (l : List Char) : List Char :=
  if l.getLast? = some '\\' ∧ 3 < l.length then l.dropLast else l

/-- Fourth step: `if (p.length >= 2 && p[1] === ':') p = p[0].toUpperCase() + p.slice(1)`. -/
def upDrive : List Char → List Char
  | c :: d :: t => if d = ':' then asciiUpper c :: d :: t else c :: d :: t
  | l => l

/-- `normPath(p)` (src/app.js lines 74-82); `if (!p) return ''` handles
the empty string. -/
def normPath (s : String) : String :=
  if s = "" then "" else ⟨upDrive (dropTrail (collapseBS (mapSlash s.data)))⟩

/-! ### Canonical-form lemmas for `normPath` idempotence -/

/-- No two adjacent backslashes. -/
def NoDbl (l : List Char) : Prop := l.Chain' (fun a b => a = '\\' → b ≠ '\\')

theorem collapseBS_head? (l : List Char) : (collapseBS l).head? = l.head? := by
  induction l with
  | nil => rfl
  | cons c t ih =>
    simp only [collapseBS]
    split
    · rename_i h
      rw [ih, h.2, ← h.1]; rfl
    · rfl

theorem collapseBS_noDbl (l : List Char) : NoDbl (collapseBS l) := by
  induction l with
  | nil => exact List.chain'_nil
  | cons c t ih =>
    simp only [collapseBS]
    split
    · exact ih
    · rename_i h
      rw [NoDbl, List.chain'_cons']
      refine ⟨?_, ih⟩
      intro y hy hc
      rw [collapseBS_head? t] at hy
      intro hy'
      exact h ⟨hc, by rw [hy'] at hy; exact hy⟩

theorem collapseBS_eq_self (l : List Char) (h : NoDbl l) : collapseBS l = l := by
  induction l with
  | nil => rfl
  | cons c t ih =>
    rw [NoDbl, List.chain'_cons'] at h
    simp only [collapseBS]
    split
    · rename_i hcond
      exact absurd rfl (h.1 '\\' (by rw [hcond.2]; rfl) hcond.1)
    · rw [ih h.2]

theorem collapseBS_subset (l : List Char) : ∀ c ∈ collapseBS l, c ∈ l := by
  induction l with
  | nil => intro c hc; simp [collapseBS] at hc
  | cons c t ih =>
    intro x hx
    simp only [collapseBS] at hx
    split at hx
    · exact List.mem_cons_of_mem _ (ih x hx)
    · rcases List.mem_cons.mp hx with h | h
      · exact h ▸ List.mem_cons_self _ _
      · exact List.mem_cons_of_mem _ (ih x h)

theorem collapseBS_ne_nil (l : List Char) (h : l ≠ []) : collapseBS l ≠ [] := by
  intro hc
  have := collapseBS_head? l
  rw [hc] at this
  cases l with
  | nil => exact h rfl
  | cons a t => simp at this


theorem char_toNat_ofNat (n : Nat) (h : n < 0xd800) : (Char.ofNat n).toNat = n := by
  simp [Char.ofNat, Char.toNat, Char.ofNatAux, Nat.isValidChar, h, UInt32.toNat, UInt32.ofNatCore]

theorem asciiUpper_fix (c x : Char) (hx : ¬(65 ≤ x.toNat ∧ x.toNat ≤ 90))
    (h : asciiUpper c = x) : c = x := by
  unfold asciiUpper at h
  split at h
  · rename_i hr
    exfalso
    apply hx
    rw [← h, char_toNat_ofNat _ (by omega)]
    omega
  · exact h

theorem asciiUpper_idem (c : Char) : asciiUpper (asciiUpper c) = asciiUpper c := by
  unfold asciiUpper
  split
  · rename_i hr
    rw [if_neg]
    rw [char_toNat_ofNat _ (by omega)]
    omega
  · rfl

theorem char_ne_of_toNat_ne {c d : Char} (h : c.toNat ≠ d.toNat) : c ≠ d := by
  intro he; exact h (he ▸ rfl)

/-! Facts about `upDrive`. -/

theorem upDrive_getLast? (l : List Char) : (upDrive l).getLast? = l.getLast? := by
  match l with
  | [] => rfl
  | [c] => rfl
  | c :: d :: t =>
    simp only [upDrive]
    split
    · rw [List.getLast?_cons_cons, List.getLast?_cons_cons]
    · rfl

theorem upDrive_length (l : List Char) : (upDrive l).length = l.length := by
  match l with
  | [] => rfl
  | [c] => rfl
  | c :: d :: t => simp only [upDrive]; split <;> rfl

theorem upDrive_no_slash (l : List Char) (h : '/' ∉ l) : '/' ∉ upDrive l := by
  match l with
  | [] => exact h
  | [c] => exact h
  | c :: d :: t =>
    simp only [upDrive]
    split
    · intro hm
      rcases List.mem_cons.mp hm with h1 | h1
      · exact h (by rw [asciiUpper_fix c '/' (by decide) h1.symm]; exact List.mem_cons_self _ _)
      · exact h (List.mem_cons_of_mem _ h1)
    · exact h

theorem upDrive_noDbl (l : List Char) (h : NoDbl l) : NoDbl (upDrive l) := by
  match l with
  | [] => exact h
  | [c] => exact h
  | c :: d :: t =>
    simp only [upDrive]
    split
    · rw [NoDbl, List.chain'_cons] at h ⊢
      refine ⟨?_, h.2⟩
      intro hu
      exact h.1 (asciiUpper_fix c '\\' (by decide) hu)
    · exact h

theorem upDrive_upDrive (l : List Char) : upDrive (upDrive l) = upDrive l := by
  match l with
  | [] => rfl
  | [c] => rfl
  | c :: d :: t =>
    by_cases hd : d = ':'
    · subst hd
      have h1 : upDrive (c :: ':' :: t) = asciiUpper c :: ':' :: t := by
        simp [upDrive]
      have h2 : upDrive (asciiUpper c :: ':' :: t) = asciiUpper (asciiUpper c) :: ':' :: t := by
        simp [upDrive]
      rw [h1, h2, asciiUpper_idem]
    · have h1 : upDrive (c :: d :: t) = c :: d :: t := by
        simp [upDrive, hd]
      rw [h1, h1]

/-! Facts about `dropTrail`. -/

theorem dropTrail_noDbl (l : List Char) (h : NoDbl l) : NoDbl (dropTrail l) := by
  unfold dropTrail
  split
  · exact List.Chain'.init h
  · exact h

theorem dropTrail_subset (l : List Char) : ∀ c ∈ dropTrail l, c ∈ l := by
  unfold dropTrail
  split
  · intro c hc; exact (List.dropLast_sublist l).subset hc
  · intro c hc; exact hc

theorem noDbl_dropLast_getLast (l : List Char) (h : NoDbl l)
    (h1 : l.getLast? = some '\\') (h2 : l.dropLast.getLast? = some '\\') : False := by
  induction l with
  | nil => simp at h1
  | cons a t ih =>
    match t, h1, h2 with
    | [], h1, h2 => simp at h2
    | b :: t', h1, h2 =>
      rw [List.getLast?_cons_cons] at h1
      rw [NoDbl, List.chain'_cons] at h
      cases t' with
      | nil =>
        simp at h1 h2
        exact h.1 h2 h1
      | cons e t'' =>
        have hd : (a :: b :: e :: t'').dropLast = a :: b :: (e :: t'').dropLast := by
          simp [List.dropLast]
        rw [hd, List.getLast?_cons_cons] at h2
        have hd2 : (b :: e :: t'').dropLast = b :: (e :: t'').dropLast := by
          simp [List.dropLast]
        rw [← hd2] at h2
        exact ih h.2 h1 h2

theorem dropTrail_getLast (l : List Char) (h : NoDbl l) :
    (dropTrail l).getLast? = some '\\' → ¬ 3 < (dropTrail l).length := by
  unfold dropTrail
  split
  · rename_i hc
    intro hlast _
    exact noDbl_dropLast_getLast l h hc.1 hlast
  · rename_i hc
    intro hlast hlen
    exact hc ⟨hlast, hlen⟩

theorem dropTrail_ne_nil (l : List Char) (h : l ≠ []) : dropTrail l ≠ [] := by
  unfold dropTrail
  split
  · rename_i hc
    intro he
    have hlen : l.dropLast.length = 0 := by rw [he]; rfl
    rw [List.length_dropLast] at hlen
    have := hc.2
    omega
  · exact h

/-! Facts about `mapSlash`. -/

theorem mapSlash_no_slash (l : List Char) : '/' ∉ mapSlash l := by
  intro h
  rcases List.mem_map.mp h with ⟨c, _, hc⟩
  by_cases h' : c = '/'
  · simp [h'] at hc
  · simp [h'] at hc

theorem mapSlash_eq_self (l : List Char) (h : '/' ∉ l) : mapSlash l = l := by
  induction l with
  | nil => rfl
  | cons c t ih =>
    unfold mapSlash
    simp only [List.map_cons]
    have hc : c ≠ '/' := fun he => h (he ▸ List.mem_cons_self _ _)
    rw [if_neg hc]
    have := ih (fun hm => h (List.mem_cons_of_mem _ hm))
    unfold mapSlash at this
    rw [this]

theorem mapSlash_ne_nil (l : List Char) (h : l ≠ []) : mapSlash l ≠ [] := by
  unfold mapSlash
  simpa using h

/-- The canonicalization kernel of `normPath` on a nonempty character list. -/
def normSteps (l : List Char) : List Char :=
  upDrive (dropTrail (collapseBS (mapSlash l)))

theorem normSteps_ne_nil (l : List Char) (h : l ≠ []) : normSteps l ≠ [] := by
  unfold normSteps
  intro he
  have h1 := mapSlash_ne_nil l h
  have h2 := collapseBS_ne_nil _ h1
  have h3 := dropTrail_ne_nil _ h2
  have := upDrive_length (dropTrail (collapseBS (mapSlash l)))
  rw [he] at this
  exact h3 (List.length_eq_zero.mp this.symm)

theorem normSteps_no_slash (l : List Char) : '/' ∉ normSteps l := by
  unfold normSteps
  apply upDrive_no_slash
  intro hm
  exact mapSlash_no_slash l (collapseBS_subset _ _ (dropTrail_subset _ _ hm))

theorem normSteps_noDbl (l : List Char) : NoDbl (normSteps l) :=
  upDrive_noDbl _ (dropTrail_noDbl _ (collapseBS_noDbl _))

theorem normSteps_getLast (l : List Char) :
    (normSteps l).getLast? = some '\\' → ¬ 3 < (normSteps l).length := by
  unfold normSteps
  rw [upDrive_getLast?, upDrive_length]
  exact dropTrail_getLast _ (collapseBS_noDbl _)

theorem normSteps_idem (l : List Char) : normSteps (normSteps l) = normSteps l := by
  conv_lhs => rw [normSteps]
  rw [mapSlash_eq_self _ (normSteps_no_slash l)]
  rw [collapseBS_eq_self _ (normSteps_noDbl l)]
  have hdt : dropTrail (normSteps l) = normSteps l := by
    unfold dropTrail
    split
    · rename_i hc
      exact absurd hc.2 (normSteps_getLast l hc.1)
    · rfl
  rw [hdt]
  unfold normSteps
  exact upDrive_upDrive _

theorem normPath_eq (s : String) (h : s ≠ "") : normPath s = ⟨normSteps s.data⟩ := by
  unfold normPath normSteps
  rw [if_neg h]

theorem string_mk_ne_empty (l : List Char) (h : l ≠ []) : (⟨l⟩ : String) ≠ "" := by
  intro he
  apply h
  have : (⟨l⟩ : String).data = ("" : String).data := by rw [he]
  simpa using this

/-- Auxiliary: `normPath` is idempotent. -/
theorem normPath_idem_aux (p : String) : normPath (normPath p) = normPath p := by
  by_cases h : p = ""
  · subst h; rfl
  · have hd : p.data ≠ [] := by
      intro he
      apply h
      show p = ""
      have h2 : (⟨p.data⟩ : String) = (⟨[]⟩ : String) := by rw [he]
      exact h2
    rw [normPath_eq p h]
    rw [normPath_eq _ (string_mk_ne_empty _ (normSteps_ne_nil _ hd))]
    rw [normSteps_idem]


/-! ## `resolvePath` (src/app.js lines 84-104) -/

/-- `p.replace(/^["']|["']$/g, '')`: strip one leading and one trailing
quote character (of either kind, independently). -/
def stripQuotes (s : String) : String :=
  let l := s.data
  let l1 := match l with
    | c :: t => if c = '"' ∨ c = '\'' then t else l
    | [] => []
  let l2 := match l1.getLast? with
    | some c => if c = '"' ∨ c = '\'' then l1.dropLast else l1
    | none => l1
  ⟨l2⟩

def isAsciiLetter (c : Char) : Bool :=
  (65 ≤ c.toNat && c.toNat ≤ 90) || (97 ≤ c.toNat && c.toNat ≤ 122)

/-- The test `/^[A-Za-z]:/.test(p)`. -/
def isAbsolute (s : String) : Bool :=
  match s.data with
  | c :: d :: _ => isAsciiLetter c && d = ':'
  | _ => false

def isSep (c : Char) : Bool := c = '/' || c = '\\'

/-- `p.split(/[/\\]/)`. -/
def splitSl : List Char → List (List Char)
  | [] => [[]]
  | c :: t =>
    if isSep c then [] :: splitSl t
    else match splitSl t with
      | h :: r => (c :: h) :: r
      | [] => [[c]]

/-- `String.prototype.lastIndexOf` for a single character (`none` models -1). -/
def lastIdxOf (c : Char) : List Char → Option Nat
  | [] => none
  | a :: t =>
    match lastIdxOf c t with
    | some i => some (i + 1)
    | none => if a = c then some 0 else none

/-- The segment-walking loop of `resolvePath` (src/app.js lines 94-102). -/
def resolveLoop (base : List Char) : List (List Char) → List Char
  | [] => base
  | part :: rest =>
    if part = [] ∨ part = ['.'] then resolveLoop base rest
    else if part = ['.', '.'] then
      match lastIdxOf '\\' base with
      | some i => if 2 < i then resolveLoop (base.take i) rest else resolveLoop base rest
      | none => resolveLoop base rest
    else resolveLoop (base ++ '\\' :: part) rest

/-- `resolvePath(p)` (src/app.js lines 84-104), with the ambient `state.cwd`
passed explicitly. -/
def resolvePath (cwd p : String) : String :=
  if p = "" ∨ p = "." then normPath cwd
  else
    let p1 := stripQuotes (jsTrim p)
    if isAbsolute p1 then normPath p1
    else normPath ⟨resolveLoop cwd.data (splitSl p1.data)⟩

/-! ## Virtual filesystem (src/app.js lines 28-171) -/

/-- A filesystem node: `{ type:'dir'|'file', content?, created, modified }`. -/
inductive Node where
  | dir  (created modified : String)
  | file (content : String) (created modified : String)
deriving DecidableEq

def Node.created : Node → String
  | .dir c _ => c
  | .file _ c _ => c

def Node.isFile : Node → Bool
  | .file _ _ _ => true
  | _ => false

def Node.isDir : Node → Bool
  | .dir _ _ => true
  | _ => false

/-- The flat path-keyed store `vfs`. -/
def Vfs := String → Option Node

def vfsSet (v : Vfs) (k : String) (n : Node) : Vfs :=
  fun k' => if k' = k then some n else v k'

/-- `fsExists` (line 106): `normPath(p) in vfs`. -/
def fsExists (p : String) (v : Vfs) : Bool := (v (normPath p)).isSome

/-- `fsIsDir` (line 107): `vfs[normPath(p)]?.type === 'dir'`. -/
def fsIsDir (p : String) (v : Vfs) : Bool := ((v (normPath p)).map Node.isDir).getD false

/-- `fsIsFile` (line 108). -/
def fsIsFile (p : String) (v : Vfs) : Bool := ((v (normPath p)).map Node.isFile).getD false

/-- `fsGetContent` (line 109): `vfs[normPath(p)]?.content ?? ''`. -/
def fsGetContent (p : String) (v : Vfs) : String :=
  match v (normPath p) with
  | some (.file c _ _) => c
  | _ => ""

/-- `fsMkdir` (lines 123-129). -/
def fsMkdir (p now : String) (v : Vfs) : Bool × Vfs :=
  let np := normPath p
  if fsExists np v then (false, v)
  else (true, vfsSet v np (.dir now now))

/-- `fsWriteFile` (lines 131-141). -/
def fsWriteFile (p content : String) (append : Bool) (now : String) (v : Vfs) : Vfs :=
  let np := normPath p
  if append && fsIsFile np v then
    vfsSet v np
      (match v np with
       | some (.file c cr _) => .file (c ++ content) cr now
       | _ => .file content now now)
  else
    vfsSet v np
      (.file content
        (match v np with
         | some n => n.created
         | none => now) now)

/-- `fsDelete` (lines 143-154): removing a directory deletes it and every key
starting with the directory path plus separator. -/
def fsDelete (p : String) (v : Vfs) : Bool × Vfs :=
  let np := normPath p
  if !fsExists np v then (false, v)
  else if fsIsDir np v then
    (true, fun k => if k = np || strStartsWith k (np ++ "\\") then none else v k)
  else
    (true, fun k => if k = np then none else v k)

/-- `String.prototype.split` on one separator character. -/
def splitOnChar (sep : Char) : List Char → List (List Char)
  | [] => [[]]
  | c :: t =>
    if c = sep then [] :: splitOnChar sep t
    else match splitOnChar sep t with
      | h :: r => (c :: h) :: r
      | [] => [[c]]

/-- `src.split('\\').pop()`. -/
def lastSeg (s : String) : String := ⟨(splitOnChar '\\' s.data).getLastD []⟩

/-- `fsCopy` (lines 156-166). -/
def fsCopy (src dst now : String) (v : Vfs) : Bool × Vfs :=
  let s := normPath src
  let d := normPath dst
  if !fsExists s v then (false, v)
  else
    let d' := if fsIsDir d v then d ++ "\\" ++ lastSeg s else d
    if fsIsFile s v then
      (true, vfsSet v d'
        (match v s with
         | some (.file c cr _) => .file c cr now
         | some (.dir cr _) => .dir cr now
         | none => .dir now now))
    else (false, v)

/-- `fsMove` (lines 168-171): copy, then delete the source; the delete is not
attempted when the copy fails. -/
def fsMove (src dst now : String) (v : Vfs) : Bool × Vfs :=
  match fsCopy src dst now v with
  | (false, v1) => (false, v1)
  | (true, v1) => (true, (fsDelete src v1).2)

/-- The directories created by `initFS` (lines 38-51). -/
def initDirs : List String :=
  ["C:", "C:\\Windows", "C:\\Windows\\System32", "C:\\Program Files",
   "C:\\Program Files (x86)", "C:\\Users", "C:\\Users\\PSUser",
   "C:\\Users\\PSUser\\Desktop", "C:\\Users\\PSUser\\Documents",
   "C:\\Users\\PSUser\\Downloads", "C:\\Users\\PSUser\\Pictures", "C:\\Temp"]

/-- The files created by `initFS` (lines 54-63). -/
def initFiles : List (String × String) :=
  [("C:\\Users\\PSUser\\Desktop\\readme.txt",
    "Welcome to PowerShell To Go!\r\nType Get-Help to see available commands.\r\nUse Tab for auto-completion.\r\nUse Up/Down arrows for command history."),
   ("C:\\Users\\PSUser\\Documents\\notes.txt",
    "My PowerShell notes\r\n-------------------\r\nGet-ChildItem  - list directory contents\r\nSet-Location   - change directory\r\nGet-Content    - read a file\r\nSet-Content    - write to a file"),
   ("C:\\Users\\PSUser\\Desktop\\hello.ps1",
    "Write-Host \"Hello from PowerShell To Go!\" -ForegroundColor Cyan\r\nGet-Date"),
   ("C:\\Temp\\sample.json",
    "\x7b\r\n  \"name\": \"PowerShell To Go\",\r\n  \"version\": \"1.0\",\r\n  \"awesome\": true\r\n\x7d")]

/-- The initial filesystem built by `initFS` (lines 32-68), with the
timestamp passed explicitly. -/
def initFS (now : String) : Vfs :=
  let v0 : Vfs := fun _ => none
  let v1 := initDirs.foldl (fun v d => vfsSet v (normPath d) (.dir now now)) v0
  initFiles.foldl (fun v pc => vfsSet v (normPath pc.1) (.file pc.2 now now)) v1

/-! ## Claim C1: resolve is a retraction under `..` -/

theorem lastIdxOf_append_sep (c a : Char) (l : List Char) (ha : a ≠ c) :
    lastIdxOf c (l ++ [c, a]) = some l.length := by
  induction l with
  | nil => simp [lastIdxOf, ha]
  | cons x t ih => simp [lastIdxOf, ih]

/-- C1 counterexample: `"C:"` is an existing directory of the initial
filesystem, yet resolving `"a\.."` from cwd `"C:"` yields `"C:\a"`, not
`normPath "C:" = "C:"`: popping with `..` is skipped when the last
separator index is not greater than 2. -/
theorem resolve_retraction_cex :
    fsIsDir "C:" (initFS "t0") = true
    ∧ resolvePath "C:" "a\\.." = "C:\\a"
    ∧ normPath "C:" = "C:"
    ∧ resolvePath "C:" "a\\.." ≠ normPath "C:" := by decide

/-- C1 (amended): resolving `"a\.."` returns `normPath cwd` for every cwd
longer than the two-character bare drive root; and the `..` handling of the
resolve loop never shortens the accumulated base below three characters
(the drive root `"C:\"`), so repeated `..` cannot underflow the drive root. -/
theorem resolve_retraction :
    (∀ cwd : String, 2 < cwd.length → resolvePath cwd "a\\.." = normPath cwd)
    ∧ (∀ (base : List Char) (parts : List (List Char)),
        min base.length 3 ≤ (resolveLoop base parts).length) := by
  constructor
  · intro cwd hlen
    have h0 : ¬(("a\\.." : String) = "" ∨ ("a\\.." : String) = ".") := by decide
    unfold resolvePath
    rw [if_neg h0]
    have h1 : stripQuotes (jsTrim "a\\..") = "a\\.." := by decide
    rw [h1]
    show (if isAbsolute "a\\.." = true then normPath "a\\.."
          else normPath ⟨resolveLoop cwd.data (splitSl ("a\\.." : String).data)⟩) = normPath cwd
    have h2 : isAbsolute "a\\.." = false := by decide
    rw [h2]
    simp only [Bool.false_eq_true, if_false]
    have h3 : splitSl ("a\\.." : String).data = [['a'], ['.', '.']] := by decide
    rw [h3]
    have h4 : resolveLoop cwd.data [['a'], ['.', '.']]
        = resolveLoop (cwd.data ++ '\\' :: ['a']) [['.', '.']] := by
      simp [resolveLoop]
    rw [h4]
    have h5 : cwd.data ++ '\\' :: ['a'] = cwd.data ++ ['\\', 'a'] := rfl
    rw [h5]
    have h6 : lastIdxOf '\\' (cwd.data ++ ['\\', 'a']) = some cwd.data.length :=
      lastIdxOf_append_sep '\\' 'a' cwd.data (by decide)
    have h7 : resolveLoop (cwd.data ++ ['\\', 'a']) [['.', '.']]
        = resolveLoop ((cwd.data ++ ['\\', 'a']).take cwd.data.length) [] := by
      simp only [resolveLoop, h6]
      rw [if_neg (by decide), if_pos (by decide), if_pos (show 2 < cwd.data.length from hlen)]
    rw [h7]
    have h8 : (cwd.data ++ ['\\', 'a']).take cwd.data.length = cwd.data :=
      List.take_left _ _
    rw [h8]
    show normPath ⟨cwd.data⟩ = normPath cwd
    rfl
  · intro base parts
    induction parts generalizing base with
    | nil => simp [resolveLoop]
    | cons part rest ih =>
      unfold resolveLoop
      split
      · exact ih base
      · split
        · split
          · split
            · rename_i i _ hi
              have h1 : (base.take i).length = min i base.length := List.length_take i base
              have h2 := ih (base.take i)
              omega
            · exact ih base
          · exact ih base
        · have h1 : (base ++ '\\' :: part).length = base.length + (part.length + 1) := by
            simp
          have h2 := ih (base ++ '\\' :: part)
          omega

/-- Witness for C1: concrete instances of both conjuncts of
`resolve_retraction`. -/
theorem resolve_retraction_witness :
    (2 < ("C:\\Temp" : String).length
      ∧ resolvePath "C:\\Temp" "a\\.." = normPath "C:\\Temp")
    ∧ min (("C:" : String).data.length) 3 ≤ (resolveLoop ("C:" : String).data [['.', '.']]).length :=
  ⟨⟨by decide, resolve_retraction.1 "C:\\Temp" (by decide)⟩,
   resolve_retraction.2 ("C:" : String).data [['.', '.']]⟩

/-! ## Claim C8: `normPath` is idempotent -/

/-- C8: path normalization is idempotent:
`normalize(normalize(p)) == normalize(p)` for every input string `p`. -/
theorem normPath_idempotent (p : String) : normPath (normPath p) = normPath p :=
  normPath_idem_aux p


/-! ## Claims C5, C6, C7: filesystem store behaviour -/

theorem fsExists_norm (p : String) (v : Vfs) : fsExists (normPath p) v = fsExists p v := by
  unfold fsExists; rw [normPath_idem_aux]

theorem fsIsDir_norm (p : String) (v : Vfs) : fsIsDir (normPath p) v = fsIsDir p v := by
  unfold fsIsDir; rw [normPath_idem_aux]

theorem fsIsFile_norm (p : String) (v : Vfs) : fsIsFile (normPath p) v = fsIsFile p v := by
  unfold fsIsFile; rw [normPath_idem_aux]

theorem isDir_shape (p : String) (v : Vfs) (h : fsIsDir p v = true) :
    ∃ cr m, v (normPath p) = some (.dir cr m) := by
  unfold fsIsDir at h
  cases hv : v (normPath p) with
  | none => rw [hv] at h; simp at h
  | some n =>
    cases n with
    | dir cr m => exact ⟨cr, m, rfl⟩
    | file c cr m => rw [hv] at h; simp [Node.isDir] at h

theorem isFile_shape (p : String) (v : Vfs) (h : fsIsFile p v = true) :
    ∃ c cr m, v (normPath p) = some (.file c cr m) := by
  unfold fsIsFile at h
  cases hv : v (normPath p) with
  | none => rw [hv] at h; simp at h
  | some n =>
    cases n with
    | dir cr m => rw [hv] at h; simp [Node.isFile] at h
    | file c cr m => exact ⟨c, cr, m, rfl⟩

/-- C5: `writeFile` / `readContent` round-trips: a non-append write is read
back verbatim; a write followed by an append reads back as the
concatenation; an append to an existing file touches only that key,
keeping the created stamp and setting modified to now; a non-append write
over any existing node keeps its created stamp and sets modified to now. -/
theorem writeFile_readContent (v : Vfs) (p x y now now2 : String) :
    fsGetContent p (fsWriteFile p x false now v) = x
    ∧ fsGetContent p (fsWriteFile p y true now2 (fsWriteFile p x false now v)) = x ++ y
    ∧ (fsIsFile p v = true →
        (∀ k, k ≠ normPath p → fsWriteFile p y true now2 v k = v k)
        ∧ ∃ c cr m, v (normPath p) = some (.file c cr m)
            ∧ fsWriteFile p y true now2 v (normPath p) = some (.file (c ++ y) cr now2))
    ∧ (∀ n, v (normPath p) = some n →
        fsWriteFile p x false now v (normPath p) = some (.file x n.created now)
        ∧ ∀ k, k ≠ normPath p → fsWriteFile p x false now v k = v k) := by
  have hidem := normPath_idem_aux p
  refine ⟨?_, ?_, ?_, ?_⟩
  · simp [fsGetContent, fsWriteFile, vfsSet]
  · simp [fsGetContent, fsWriteFile, fsIsFile, vfsSet, hidem, Node.isFile]
  · intro h
    obtain ⟨c, cr, m, hv⟩ := isFile_shape p v h
    have hguard : (true && fsIsFile (normPath p) v) = true := by
      rw [fsIsFile_norm]; simp [h]
    constructor
    · intro k hk
      simp only [fsWriteFile, hguard, if_pos, vfsSet]
      rw [if_neg hk]
    · refine ⟨c, cr, m, hv, ?_⟩
      simp only [fsWriteFile, hguard, if_pos, vfsSet, hv]
  · intro n hn
    constructor
    · simp only [fsWriteFile, Bool.false_and, Bool.false_eq_true, if_false, vfsSet, hn,
        if_pos rfl]
      simp
    · intro k hk
      simp only [fsWriteFile, Bool.false_and, Bool.false_eq_true, if_false, vfsSet]
      rw [if_neg hk]

/-- Witness for C5 at a concrete file store. -/
theorem writeFile_readContent_witness :
    (fsIsFile "C:\\f.txt"
        (vfsSet (fun _ => none) "C:\\f.txt" (.file "c0" "cr0" "m0")) = true
      ∧ fsGetContent "C:\\f.txt"
          (fsWriteFile "C:\\f.txt" "x" false "n1"
            (vfsSet (fun _ => none) "C:\\f.txt" (.file "c0" "cr0" "m0"))) = "x")
    ∧ (vfsSet (fun _ => none) "C:\\f.txt" (.file "c0" "cr0" "m0")) (normPath "C:\\f.txt")
        = some (.file "c0" "cr0" "m0") := by
  constructor
  · constructor
    · decide
    · exact (writeFile_readContent
        (vfsSet (fun _ => none) "C:\\f.txt" (.file "c0" "cr0" "m0"))
        "C:\\f.txt" "x" "y" "n1" "n2").1
  · decide

/-- C6: deleting a directory removes it and every key beginning with the
directory path plus separator, and nothing else; the concrete
makeDir/writeFile/remove scenario leaves neither path existing; and remove
fails, leaving the store unchanged, when the path does not exist. -/
theorem delete_recursive :
    (∀ (v : Vfs) (d : String), fsIsDir d v = true →
       (fsDelete d v).1 = true
       ∧ (fsDelete d v).2 (normPath d) = none
       ∧ (∀ k, strStartsWith k (normPath d ++ "\\") = true → (fsDelete d v).2 k = none)
       ∧ (∀ k, k ≠ normPath d → strStartsWith k (normPath d ++ "\\") = false →
            (fsDelete d v).2 k = v k))
    ∧ ((fsDelete "C:\\a"
          (fsWriteFile "C:\\a\\b.txt" "z" false "t2"
            (fsMkdir "C:\\a" "t1" (fun _ => none)).2)).1 = true
       ∧ fsExists "C:\\a"
          (fsDelete "C:\\a"
            (fsWriteFile "C:\\a\\b.txt" "z" false "t2"
              (fsMkdir "C:\\a" "t1" (fun _ => none)).2)).2 = false
       ∧ fsExists "C:\\a\\b.txt"
          (fsDelete "C:\\a"
            (fsWriteFile "C:\\a\\b.txt" "z" false "t2"
              (fsMkdir "C:\\a" "t1" (fun _ => none)).2)).2 = false)
    ∧ (∀ (v : Vfs) (p : String), fsExists p v = false → fsDelete p v = (false, v)) := by
  refine ⟨?_, by decide, ?_⟩
  · intro v d h
    obtain ⟨cr, m, hv⟩ := isDir_shape d v h
    have hex : fsExists (normPath d) v = true := by
      rw [fsExists_norm]; unfold fsExists; rw [hv]; rfl
    have hdir : fsIsDir (normPath d) v = true := by rw [fsIsDir_norm]; exact h
    refine ⟨?_, ?_, ?_, ?_⟩
    · simp [fsDelete, hex, hdir]
    · simp [fsDelete, hex, hdir]
    · intro k hk
      simp [fsDelete, hex, hdir, hk]
    · intro k hk1 hk2
      simp [fsDelete, hex, hdir, hk1, hk2]
  · intro v p h
    have hex : fsExists (normPath p) v = false := by rw [fsExists_norm]; exact h
    simp [fsDelete, hex]

/-- Witness for C6: instantiate the universally-quantified conjuncts of
`delete_recursive` at a concrete store. -/
theorem delete_recursive_witness :
    (fsIsDir "C:\\a" (vfsSet (fun _ => none) "C:\\a" (.dir "t" "t")) = true
      ∧ (fsDelete "C:\\a" (vfsSet (fun _ => none) "C:\\a" (.dir "t" "t"))).2
          (normPath "C:\\a") = none)
    ∧ (fsExists "C:\\zzz" (fun _ => none) = false
      ∧ fsDelete "C:\\zzz" (fun _ => none) = (false, (fun _ => none))) := by
  constructor
  · constructor
    · decide
    · exact ((delete_recursive.1 (vfsSet (fun _ => none) "C:\\a" (.dir "t" "t"))
        "C:\\a" (by decide)).2).1
  · constructor
    · decide
    · exact delete_recursive.2.2 (fun _ => none) "C:\\zzz" (by decide)

/-- C7: when the copy step fails (missing source or directory source),
`move` reports failure and returns the store unchanged — the delete of the
source is never attempted. -/
theorem move_fails_atomically (v : Vfs) (src dst now : String)
    (h : fsExists src v = false ∨ fsIsDir src v = true) :
    fsMove src dst now v = (false, v) := by
  have hcopy : fsCopy src dst now v = (false, v) := by
    rcases h with h | h
    · have hex : fsExists (normPath src) v = false := by rw [fsExists_norm]; exact h
      simp [fsCopy, hex]
    · obtain ⟨cr, m, hv⟩ := isDir_shape src v h
      have hex : fsExists (normPath src) v = true := by
        rw [fsExists_norm]; unfold fsExists; rw [hv]; rfl
      have hfile : fsIsFile (normPath src) v = false := by
        rw [fsIsFile_norm]; unfold fsIsFile; rw [hv]; rfl
      simp [fsCopy, hex, hfile]
  unfold fsMove
  rw [hcopy]

/-- Witness for C7 at a concrete store with a missing source. -/
theorem move_fails_atomically_witness :
    fsExists "C:\\x" (fun _ => none) = false
    ∧ fsMove "C:\\x" "C:\\y" "t" (fun _ => none) = (false, (fun _ => none)) :=
  ⟨by decide, move_fails_atomically (fun _ => none) "C:\\x" "C:\\y" "t" (Or.inl (by decide))⟩

/-! ## Claim C9: history deduplication and cap (src/app.js lines 208-215) -/

/-- `addHistory(cmd)` (lines 208-215): blank lines are ignored; existing
copies of the line are filtered out, the line is pushed at the end, and a
leading entry is shifted off when the length exceeds 200. -/
def addHistory (hist : List String) (cmd : String) : List String :=
  if jsTrim cmd = "" then hist
  else
    let f := hist.filter (fun h => h ≠ cmd)
    let h2 := f ++ [cmd]
    if 200 < h2.length then h2.drop 1 else h2

/-- C9: starting from a history of at most 200 entries, adding a non-blank
command keeps the length at most 200, puts the command exactly once at the
most-recent (last) position, and the remaining entries are a subsequence of
the original history (relative order preserved, no duplicate of the
command). -/
theorem addHistory_spec (hist : List String) (cmd : String)
    (hlen : hist.length ≤ 200) (hcmd : jsTrim cmd ≠ "") :
    (addHistory hist cmd).length ≤ 200
    ∧ (addHistory hist cmd).getLast? = some cmd
    ∧ (addHistory hist cmd).count cmd = 1
    ∧ cmd ∉ (addHistory hist cmd).dropLast
    ∧ (addHistory hist cmd).dropLast.Sublist hist := by
  unfold addHistory
  rw [if_neg hcmd]
  set f := hist.filter (fun h => h ≠ cmd) with hf
  have hf_sub : f.Sublist hist := List.filter_sublist _
  have hf_len : f.length ≤ 200 := le_trans hf_sub.length_le hlen
  have hf_not : cmd ∉ f := by
    intro hm
    have := (List.mem_filter.mp hm).2
    simp at this
  have hcount_f : f.count cmd = 0 := List.count_eq_zero.mpr hf_not
  by_cases hov : 200 < (f ++ [cmd]).length
  · rw [if_pos hov]
    simp only [List.length_append, List.length_singleton] at hov
    have hflen200 : f.length = 200 := by omega
    have hdrop : (f ++ [cmd]).drop 1 = f.drop 1 ++ [cmd] :=
      List.drop_append_of_le_length (by omega)
    rw [hdrop]
    have hd_sub : (f.drop 1).Sublist f := List.drop_sublist 1 f
    have hd_not : cmd ∉ f.drop 1 := fun hm => hf_not (hd_sub.subset hm)
    refine ⟨?_, List.getLast?_concat _, ?_, ?_, ?_⟩
    · simp [List.length_drop, hflen200]
    · rw [List.count_append, List.count_eq_zero.mpr hd_not]
      simp
    · rw [List.dropLast_concat]; exact hd_not
    · rw [List.dropLast_concat]; exact hd_sub.trans hf_sub
  · rw [if_neg hov]
    simp only [List.length_append, List.length_singleton] at hov
    refine ⟨?_, List.getLast?_concat _, ?_, ?_, ?_⟩
    · simp only [List.length_append, List.length_singleton]; omega
    · rw [List.count_append, hcount_f]; simp
    · rw [List.dropLast_concat]; exact hf_not
    · rw [List.dropLast_concat]; exact hf_sub

/-- Witness for C9 at a concrete history. -/
theorem addHistory_spec_witness :
    (["dir"] : List String).length ≤ 200
    ∧ jsTrim "ls" ≠ ""
    ∧ (addHistory ["dir"] "ls").getLast? = some "ls" :=
  ⟨by decide, by decide, (addHistory_spec ["dir"] "ls" (by decide) (by decide)).2.1⟩


/-! ## Variable expansion (src/app.js lines 313-334) -/

/-- The ambient shell state consulted by variable expansion: the user
variable table `state.variables` and the current directory `state.cwd`. -/
structure Env where
  vars : String → Option String
  cwd : String

/-- `getBuiltinVar(name)` (src/app.js lines 323-334). -/
def getBuiltinVar (env : Env) (name : String) : Option String :=
  let n := strLower name
  if n = "null" then some ""
  else if n = "true" then some "True"
  else if n = "false" then some "False"
  else if n = "psversiontable" then some "Name:PSToGo Version:1.0"
  else if n = "env:username" ∨ n = "username" then some "PSUser"
  else if n = "env:computername" ∨ n = "computername" then some "PSTOGO-PC"
  else if n = "home" then some "C:\\Users\\PSUser"
  else if n = "pwd" then some env.cwd
  else none

/-- `[A-Za-z_]`, the first character of a bare variable reference. -/
def isIdentStart (c : Char) : Bool :=
  (65 ≤ c.toNat && c.toNat ≤ 90) || (97 ≤ c.toNat && c.toNat ≤ 122) || c = '_'

/-- `\w`, the following characters of a bare variable reference. -/
def isWordChar (c : Char) : Bool := isIdentStart c || isDigitChar c

/-- First replacement pass of `expandVariables` (line 316): replace every
occurrence of a dollar, an opening brace, one or more non-closing-brace
characters and a closing brace with `state.variables[n] ?? ''`.  The scan
walks left to right; the structural fuel argument (one unit per consumed
character suffices; the wrapper passes the input length) makes the
definition kernel-computable. -/
def expandBracedAux (vars : String → Option String) : Nat → List Char → List Char
  | 0, l => l
  | _ + 1, [] => []
  | fuel + 1, '$' :: '\x7b' :: rest =>
      let name := rest.takeWhile (· != '\x7d')
      let rem := rest.dropWhile (· != '\x7d')
      match name, rem with
      | _ :: _, '\x7d' :: after => ((vars ⟨name⟩).getD "").data ++ expandBracedAux vars fuel after
      | _, _ => '$' :: expandBracedAux vars fuel ('\x7b' :: rest)
  | fuel + 1, c :: rest => c :: expandBracedAux vars fuel rest

/-- Second replacement pass (lines 317-320):
`str.replace(/\$([A-Za-z_]\w*)/g, ...)`, resolving built-ins first, then the
user variable table, else keeping the literal `$name` text. -/
def expandBareAux (env : Env) : Nat → List Char → List Char
  | 0, l => l
  | _ + 1, [] => []
  | fuel + 1, '$' :: c :: rest =>
      if isIdentStart c then
        let name : List Char := c :: rest.takeWhile isWordChar
        let after := rest.dropWhile isWordChar
        let repl : String :=
          match getBuiltinVar env ⟨name⟩ with
          | some v => v
          | none =>
            match env.vars ⟨name⟩ with
            | some v => v
            | none => "$" ++ ⟨name⟩
        repl.data ++ expandBareAux env fuel after
      else '$' :: expandBareAux env fuel (c :: rest)
  | fuel + 1, c :: rest => c :: expandBareAux env fuel rest

/-- `expandVariables(str)` (lines 313-321): the braced pass, then the bare
pass over its output. -/
def expandVariables (env : Env) (s : String) : String :=
  ⟨expandBareAux env
    (expandBracedAux env.vars s.data.length s.data).length
    (expandBracedAux env.vars s.data.length s.data)⟩

/-! ### Lemmas for claims C4 and C10 -/

theorem takeWhile_all_append (p : Char → Bool) (l l' : List Char)
    (h : l.all p = true) : (l ++ l').takeWhile p = l ++ l'.takeWhile p := by
  induction l with
  | nil => rfl
  | cons c t ih =>
    rw [List.all_cons, Bool.and_eq_true] at h
    simp [List.takeWhile, h.1, ih h.2]

theorem dropWhile_all_append (p : Char → Bool) (l l' : List Char)
    (h : l.all p = true) : (l ++ l').dropWhile p = l'.dropWhile p := by
  induction l with
  | nil => rfl
  | cons c t ih =>
    rw [List.all_cons, Bool.and_eq_true] at h
    simp [List.dropWhile, h.1, ih h.2]

theorem takeWhile_all (p : Char → Bool) (l : List Char) (h : l.all p = true) :
    l.takeWhile p = l := by
  have := takeWhile_all_append p l [] h
  simpa using this

theorem dropWhile_all (p : Char → Bool) (l : List Char) (h : l.all p = true) :
    l.dropWhile p = [] := by
  have := dropWhile_all_append p l [] h
  simpa using this

theorem expandBracedAux_nil (vars : String → Option String) (fuel : Nat) :
    expandBracedAux vars fuel [] = [] := by
  cases fuel <;> rfl

theorem expandBareAux_nil (env : Env) (fuel : Nat) :
    expandBareAux env fuel [] = [] := by
  cases fuel <;> rfl

theorem expandBracedAux_no_dollar (vars : String → Option String) (fuel : Nat)
    (l : List Char) (h : '$' ∉ l) : expandBracedAux vars fuel l = l := by
  induction fuel generalizing l with
  | zero => rfl
  | succ fuel ih =>
    cases l with
    | nil => rfl
    | cons c rest =>
      have hc : c ≠ '$' := fun he => h (he ▸ List.mem_cons_self _ _)
      have hr : '$' ∉ rest := fun hm => h (List.mem_cons_of_mem _ hm)
      simp [expandBracedAux, hc, ih rest hr]

theorem expandBareAux_no_dollar (env : Env) (fuel : Nat)
    (l : List Char) (h : '$' ∉ l) : expandBareAux env fuel l = l := by
  induction fuel generalizing l with
  | zero => rfl
  | succ fuel ih =>
    cases l with
    | nil => rfl
    | cons c rest =>
      have hc : c ≠ '$' := fun he => h (he ▸ List.mem_cons_self _ _)
      have hr : '$' ∉ rest := fun hm => h (List.mem_cons_of_mem _ hm)
      simp [expandBareAux, hc, ih rest hr]

theorem wordChar_ne (c : Char) (h : isWordChar c = true) :
    c ≠ '$' ∧ c ≠ '\x7b' ∧ c ≠ '\x7d' := by
  refine ⟨?_, ?_, ?_⟩ <;> intro he <;> subst he <;> exact absurd h (by decide)

theorem identStart_ne (c : Char) (h : isIdentStart c = true) :
    c ≠ '$' ∧ c ≠ '\x7b' := by
  constructor <;> intro he <;> subst he <;> exact absurd h (by decide)

/-- A name made of word characters contains no `$`. -/
theorem wordChars_no_dollar (l : List Char) (h : l.all isWordChar = true) :
    '$' ∉ l := by
  intro hm
  have := List.all_eq_true.mp h '$' hm
  exact absurd this (by decide)

/-- Step of the braced pass on a whole `"${name}"`-shaped input. -/
theorem expandBracedAux_step (vars : String → Option String) (fuel : Nat)
    (name : List Char) (hne : name ≠ []) (hall : name.all (· != '\x7d') = true) :
    expandBracedAux vars (fuel + 1) ('$' :: '\x7b' :: (name ++ ['\x7d'])) =
      ((vars ⟨name⟩).getD "").data := by
  have ht : (name ++ ['\x7d']).takeWhile (· != '\x7d') = name := by
    rw [takeWhile_all_append _ _ _ hall]
    simp [List.takeWhile]
  have hd : (name ++ ['\x7d']).dropWhile (· != '\x7d') = ['\x7d'] := by
    rw [dropWhile_all_append _ _ _ hall]
    simp [List.dropWhile]
  cases name with
  | nil => exact absurd rfl hne
  | cons c t =>
    simp only [expandBracedAux, ht, hd]
    rw [expandBracedAux_nil]
    simp

/-- A string whose characters form an identifier: `[A-Za-z_]\w*`. -/
def isIdentName (s : String) : Bool :=
  match s.data with
  | c :: t => isIdentStart c && t.all isWordChar
  | [] => false

/-- C4: for an identifier `foo` defined neither as a user variable nor as a
built-in, the braced form expands to the empty string while the bare form
`$foo` is preserved literally. -/
theorem expand_undefined_asymmetry (env : Env) (foo : String)
    (hid : isIdentName foo = true)
    (hb : getBuiltinVar env foo = none)
    (hv : env.vars foo = none) :
    expandVariables env ("$\x7b" ++ foo ++ "\x7d") = ""
    ∧ expandVariables env ("$" ++ foo) = "$" ++ foo := by
  obtain ⟨c, t, hdata, hstart, hword⟩ :
      ∃ c t, foo.data = c :: t ∧ isIdentStart c = true ∧ t.all isWordChar = true := by
    unfold isIdentName at hid
    cases hfd : foo.data with
    | nil => rw [hfd] at hid; simp at hid
    | cons c t =>
      rw [hfd] at hid
      simp only [Bool.and_eq_true] at hid
      exact ⟨c, t, rfl, hid.1, hid.2⟩
  have hfoo_all : foo.data.all isWordChar = true := by
    rw [hdata, List.all_cons, Bool.and_eq_true]
    exact ⟨by unfold isWordChar; rw [hstart]; rfl, hword⟩
  have hfoo_nodollar : '$' ∉ foo.data := wordChars_no_dollar _ hfoo_all
  have hfoo_nobrace : foo.data.all (· != '\x7d') = true := by
    rw [List.all_eq_true]
    intro x hx
    have hw := List.all_eq_true.mp hfoo_all x hx
    have h3 := (wordChar_ne x hw).2.2
    simpa using h3
  have hfoo_ne : foo.data ≠ [] := by rw [hdata]; simp
  have hfoo_mk : (⟨foo.data⟩ : String) = foo := rfl
  constructor
  · -- braced form: the first pass substitutes the (undefined) user variable
    have hdat : ("$\x7b" ++ foo ++ "\x7d").data = '$' :: '\x7b' :: (foo.data ++ ['\x7d']) := by
      show ("$\x7b" ++ foo ++ "\x7d").data = ['$', '\x7b'] ++ (foo.data ++ ['\x7d'])
      rfl
    unfold expandVariables
    rw [hdat]
    have hlen : ('$' :: '\x7b' :: (foo.data ++ ['\x7d'])).length
        = (foo.data.length + 2) + 1 := by simp
    rw [hlen]
    rw [expandBracedAux_step env.vars (foo.data.length + 2) foo.data hfoo_ne hfoo_nobrace]
    rw [hfoo_mk, hv]
    show (⟨expandBareAux env (([] : List Char)).length []⟩ : String) = ""
    rw [expandBareAux_nil]
  · -- bare form: pass one is the identity, pass two restores the literal
    have hdat : ("$" ++ foo).data = '$' :: foo.data := rfl
    unfold expandVariables
    rw [hdat]
    have hc1 : c ≠ '\x7b' := (identStart_ne c hstart).2
    have hnd : '$' ∉ c :: t := by rw [← hdata]; exact hfoo_nodollar
    have hpass1 : ∀ fuel, expandBracedAux env.vars (fuel + 1) ('$' :: foo.data)
        = '$' :: foo.data := by
      intro fuel
      rw [hdata]
      have hstep : expandBracedAux env.vars (fuel + 1) ('$' :: c :: t)
          = '$' :: expandBracedAux env.vars fuel (c :: t) := by
        simp [expandBracedAux, hc1]
      rw [hstep, expandBracedAux_no_dollar env.vars fuel _ hnd]
    have hlen1 : ('$' :: foo.data).length = foo.data.length + 1 := rfl
    rw [hlen1, hpass1]
    have hpass2 : expandBareAux env (foo.data.length + 1) ('$' :: foo.data)
        = ('$' :: foo.data) := by
      rw [hdata]
      have htw : t.takeWhile isWordChar = t := takeWhile_all _ _ hword
      have hdw : t.dropWhile isWordChar = [] := dropWhile_all _ _ hword
      have hfoo_eq : (⟨c :: t⟩ : String) = foo := by rw [← hdata]
      show expandBareAux env ((c :: t).length + 1) ('$' :: c :: t) = '$' :: c :: t
      simp only [expandBareAux, hstart, if_true, htw, hdw, hfoo_eq, hb, hv,
        expandBareAux_nil, List.append_nil]
      rw [← hdata]
      rfl
    rw [hlen1, hpass2]
    rfl

/-- Witness for C4: the undefined name `foo` in the default environment. -/
theorem expand_undefined_asymmetry_witness :
    isIdentName "foo" = true
    ∧ getBuiltinVar ⟨fun _ => none, "C:\\Users\\PSUser\\Desktop"⟩ "foo" = none
    ∧ (Env.vars ⟨fun _ => none, "C:\\Users\\PSUser\\Desktop"⟩) "foo" = none
    ∧ expandVariables ⟨fun _ => none, "C:\\Users\\PSUser\\Desktop"⟩ ("$\x7b" ++ "foo" ++ "\x7d") = ""
    ∧ expandVariables ⟨fun _ => none, "C:\\Users\\PSUser\\Desktop"⟩ ("$" ++ "foo") = "$" ++ "foo" := by
  refine ⟨by decide, by decide, by decide, ?_, ?_⟩
  · exact (expand_undefined_asymmetry ⟨fun _ => none, "C:\\Users\\PSUser\\Desktop"⟩
      "foo" (by decide) (by decide) (by decide)).1
  · exact (expand_undefined_asymmetry ⟨fun _ => none, "C:\\Users\\PSUser\\Desktop"⟩
      "foo" (by decide) (by decide) (by decide)).2

/-- C10: for a built-in identifier `b` with no user variable of the same
name, the braced form expands to the empty string (the braced pass consults
only the user variable table), while the bare form yields the built-in's
value. -/
theorem braced_skips_builtins (env : Env) (b v : String)
    (hid : isIdentName b = true)
    (hb : getBuiltinVar env b = some v)
    (hv : env.vars b = none) :
    expandVariables env ("$\x7b" ++ b ++ "\x7d") = ""
    ∧ expandVariables env ("$" ++ b) = v := by
  obtain ⟨c, t, hdata, hstart, hword⟩ :
      ∃ c t, b.data = c :: t ∧ isIdentStart c = true ∧ t.all isWordChar = true := by
    unfold isIdentName at hid
    cases hfd : b.data with
    | nil => rw [hfd] at hid; simp at hid
    | cons c t =>
      rw [hfd] at hid
      simp only [Bool.and_eq_true] at hid
      exact ⟨c, t, rfl, hid.1, hid.2⟩
  have hb_all : b.data.all isWordChar = true := by
    rw [hdata, List.all_cons, Bool.and_eq_true]
    exact ⟨by unfold isWordChar; rw [hstart]; rfl, hword⟩
  have hb_nodollar : '$' ∉ b.data := wordChars_no_dollar _ hb_all
  have hb_nobrace : b.data.all (· != '\x7d') = true := by
    rw [List.all_eq_true]
    intro x hx
    have hw := List.all_eq_true.mp hb_all x hx
    have h3 := (wordChar_ne x hw).2.2
    simpa using h3
  have hb_ne : b.data ≠ [] := by rw [hdata]; simp
  have hb_mk : (⟨b.data⟩ : String) = b := rfl
  constructor
  · have hdat : ("$\x7b" ++ b ++ "\x7d").data = '$' :: '\x7b' :: (b.data ++ ['\x7d']) := by
      show ("$\x7b" ++ b ++ "\x7d").data = ['$', '\x7b'] ++ (b.data ++ ['\x7d'])
      rfl
    unfold expandVariables
    rw [hdat]
    have hlen : ('$' :: '\x7b' :: (b.data ++ ['\x7d'])).length
        = (b.data.length + 2) + 1 := by simp
    rw [hlen]
    rw [expandBracedAux_step env.vars (b.data.length + 2) b.data hb_ne hb_nobrace]
    rw [hb_mk, hv]
    show (⟨expandBareAux env (([] : List Char)).length []⟩ : String) = ""
    rw [expandBareAux_nil]
  · have hdat : ("$" ++ b).data = '$' :: b.data := rfl
    unfold expandVariables
    rw [hdat]
    have hc1 : c ≠ '\x7b' := (identStart_ne c hstart).2
    have hnd : '$' ∉ c :: t := by rw [← hdata]; exact hb_nodollar
    have hpass1 : ∀ fuel, expandBracedAux env.vars (fuel + 1) ('$' :: b.data)
        = '$' :: b.data := by
      intro fuel
      rw [hdata]
      have hstep : expandBracedAux env.vars (fuel + 1) ('$' :: c :: t)
          = '$' :: expandBracedAux env.vars fuel (c :: t) := by
        simp [expandBracedAux, hc1]
      rw [hstep, expandBracedAux_no_dollar env.vars fuel _ hnd]
    have hlen1 : ('$' :: b.data).length = b.data.length + 1 := rfl
    rw [hlen1, hpass1]
    have hpass2 : expandBareAux env (b.data.length + 1) ('$' :: b.data) = v.data := by
      rw [hdata]
      have htw : t.takeWhile isWordChar = t := takeWhile_all _ _ hword
      have hdw : t.dropWhile isWordChar = [] := dropWhile_all _ _ hword
      have hb_eq : (⟨c :: t⟩ : String) = b := by rw [← hdata]
      show expandBareAux env ((c :: t).length + 1) ('$' :: c :: t) = v.data
      simp only [expandBareAux, hstart, if_true, htw, hdw, hb_eq, hb,
        expandBareAux_nil, List.append_nil]
    rw [hlen1, hpass2]

/-- Witness for C10: the built-in `true` (value `"True"`) in the default
environment. -/
theorem braced_skips_builtins_witness :
    isIdentName "true" = true
    ∧ getBuiltinVar ⟨fun _ => none, "C:\\Users\\PSUser\\Desktop"⟩ "true" = some "True"
    ∧ (Env.vars ⟨fun _ => none, "C:\\Users\\PSUser\\Desktop"⟩) "true" = none
    ∧ expandVariables ⟨fun _ => none, "C:\\Users\\PSUser\\Desktop"⟩ ("$\x7b" ++ "true" ++ "\x7d") = ""
    ∧ expandVariables ⟨fun _ => none, "C:\\Users\\PSUser\\Desktop"⟩ ("$" ++ "true") = "True" := by
  refine ⟨by decide, by decide, by decide, ?_, ?_⟩
  · exact (braced_skips_builtins ⟨fun _ => none, "C:\\Users\\PSUser\\Desktop"⟩
      "true" "True" (by decide) (by decide) (by decide)).1
  · exact (braced_skips_builtins ⟨fun _ => none, "C:\\Users\\PSUser\\Desktop"⟩
      "true" "True" (by decide) (by decide) (by decide)).2


/-! ## Safe arithmetic evaluator (src/app.js lines 337-396) -/

/-- Exact rational numbers as unnormalized fractions (kept kernel-computable;
every value built by the evaluator has a nonzero denominator, and every value
built by `Number()` parsing a positive one). -/
structure JRat where
  num : Int
  den : Int
deriving DecidableEq

/-- Denotation into `ℚ`, used to state numeric results. -/
def JRat.toRat (q : JRat) : ℚ := (q.num : ℚ) / (q.den : ℚ)

def JRat.ofInt (n : Int) : JRat := ⟨n, 1⟩

/-- Value test against zero (denominators are nonzero). -/
def JRat.isZero (q : JRat) : Bool := q.num = 0

def JRat.add (a b : JRat) : JRat := ⟨a.num * b.den + b.num * a.den, a.den * b.den⟩
def JRat.sub (a b : JRat) : JRat := ⟨a.num * b.den - b.num * a.den, a.den * b.den⟩
def JRat.mul (a b : JRat) : JRat := ⟨a.num * b.num, a.den * b.den⟩
def JRat.div (a b : JRat) : JRat := ⟨a.num * b.den, a.den * b.num⟩
def JRat.neg (a : JRat) : JRat := ⟨-a.num, a.den⟩

/-- Truncation toward zero, as used by the JavaScript `%` operator. -/
def JRat.trunc (q : JRat) : Int := q.num.tdiv q.den

/-- NaN-propagating arithmetic on `Option JRat` (`none` is NaN). -/
def optAdd : Option JRat → Option JRat → Option JRat
  | some a, some b => some (a.add b)
  | _, _ => none

def optSub : Option JRat → Option JRat → Option JRat
  | some a, some b => some (a.sub b)
  | _, _ => none

def optMul : Option JRat → Option JRat → Option JRat
  | some a, some b => some (a.mul b)
  | _, _ => none

def optNeg : Option JRat → Option JRat
  | some a => some a.neg
  | none => none

/-- `left = right !== 0 ? left / right : NaN` (line 374): a zero divisor is
NaN regardless of the dividend; a NaN on either side propagates. -/
def optDiv (a b : Option JRat) : Option JRat :=
  match b with
  | none => none
  | some y => if y.isZero then none else a.map (·.div y)

/-- The JavaScript `%` operator: `x - y * trunc(x / y)`, NaN when the
divisor is zero or an operand is NaN. -/
def optMod (a b : Option JRat) : Option JRat :=
  match a, b with
  | some x, some y =>
    if y.isZero then none
    else some (x.sub (y.mul (JRat.ofInt ((x.div y).trunc))))
  | _, _ => none

/-- `[\d.]`, the characters accumulated into a numeric token. -/
def isNumChar (c : Char) : Bool := isDigitChar c || c = '.'

/-- The operator/parenthesis characters `'+-*/%()'`. -/
def isArithOpChar (c : Char) : Bool := c ∈ ['+', '-', '*', '/', '%', '(', ')']

/-- The character class of the arithmetic regular expressions
(`[\d\s+\-*/%.()]`): exactly the characters the tokenizer accepts. -/
def isArithChar (c : Char) : Bool := jsWs c || isNumChar c || isArithOpChar c

/-- Numeric value of a digit run. -/
def digitsVal (l : List Char) : Nat := l.foldl (fun acc c => acc * 10 + (c.toNat - 48)) 0

/-- `parseFloat` on a token drawn from `[\d.]+`: the longest prefix of the
form `digits ('.' digits*)?` or `'.' digits+` is converted (so `"1.2.3"`
parses as 1.2); a token with no such prefix (such as `"."`) is NaN. -/
def jsParseFloat (l : List Char) : Option JRat :=
  let ip := l.takeWhile isDigitChar
  if ip.isEmpty then
    match l with
    | '.' :: r2 =>
      let fp := r2.takeWhile isDigitChar
      if fp.isEmpty then none
      else some ⟨digitsVal fp, (10 : Int) ^ fp.length⟩
    | _ => none
  else
    match l.dropWhile isDigitChar with
    | '.' :: r2 =>
      let fp := r2.takeWhile isDigitChar
      some ⟨digitsVal ip * 10 ^ fp.length + digitsVal fp, (10 : Int) ^ fp.length⟩
    | _ => some ⟨digitsVal ip, 1⟩

/-- A token of the arithmetic evaluator: a number (possibly the NaN produced
by `parseFloat` on a malformed literal) or an operator character. -/
inductive Tok where
  | num (v : Option JRat)
  | op (c : Char)
deriving DecidableEq

/-- The tokenizer (lines 339-352): whitespace is skipped, runs of `[\d.]`
become numeric tokens via `parseFloat`, the six operator characters become
operator tokens, and any other character makes the whole input NaN.
Structural fuel (one unit per consumed character). -/
def tokenizeAux : Nat → List Char → Option (List Tok)
  | 0, _ => none
  | _ + 1, [] => some []
  | fuel + 1, c :: rest =>
    if jsWs c then tokenizeAux fuel rest
    else if isNumChar c then
      (tokenizeAux fuel (rest.dropWhile isNumChar)).map
        (Tok.num (jsParseFloat (c :: rest.takeWhile isNumChar)) :: ·)
    else if isArithOpChar c then
      (tokenizeAux fuel rest).map (Tok.op c :: ·)
    else none

def tokenizeL (l : List Char) : Option (List Tok) := tokenizeAux (l.length + 1) l

mutual

/-- `parseExpr` (lines 359-367). -/
def parseExprF : Nat → List Tok → Option JRat × List Tok
  | 0, ts => (none, ts)
  | fuel + 1, ts =>
    let r := parseTermF fuel ts
    parseExprLoopF fuel r.1 r.2

/-- The `+`/`-` loop of `parseExpr`. -/
def parseExprLoopF : Nat → Option JRat → List Tok → Option JRat × List Tok
  | 0, left, ts => (left, ts)
  | fuel + 1, left, ts =>
    match ts with
    | Tok.op '+' :: ts1 =>
      let r := parseTermF fuel ts1
      parseExprLoopF fuel (optAdd left r.1) r.2
    | Tok.op '-' :: ts1 =>
      let r := parseTermF fuel ts1
      parseExprLoopF fuel (optSub left r.1) r.2
    | _ => (left, ts)

/-- `parseTerm` (lines 368-378). -/
def parseTermF : Nat → List Tok → Option JRat × List Tok
  | 0, ts => (none, ts)
  | fuel + 1, ts =>
    let r := parseFactorF fuel ts
    parseTermLoopF fuel r.1 r.2

/-- The `*`/`/`/`%` loop of `parseTerm`. -/
def parseTermLoopF : Nat → Option JRat → List Tok → Option JRat × List Tok
  | 0, left, ts => (left, ts)
  | fuel + 1, left, ts =>
    match ts with
    | Tok.op '*' :: ts1 =>
      let r := parseFactorF fuel ts1
      parseTermLoopF fuel (optMul left r.1) r.2
    | Tok.op '/' :: ts1 =>
      let r := parseFactorF fuel ts1
      parseTermLoopF fuel (optDiv left r.1) r.2
    | Tok.op '%' :: ts1 =>
      let r := parseFactorF fuel ts1
      parseTermLoopF fuel (optMod left r.1) r.2
    | _ => (left, ts)

/-- `parseFactor` (lines 379-392): a number, a parenthesised expression
(a missing closing parenthesis is tolerated), unary minus/plus; anything
else is NaN without consuming the token. -/
def parseFactorF : Nat → List Tok → Option JRat × List Tok
  | 0, ts => (none, ts)
  | _ + 1, [] => (none, [])
  | _ + 1, Tok.num v :: ts1 => (v, ts1)
  | fuel + 1, Tok.op '(' :: ts1 =>
    let r := parseExprF fuel ts1
    (match r.2 with
     | Tok.op ')' :: ts3 => (r.1, ts3)
     | _ => (r.1, r.2))
  | fuel + 1, Tok.op '-' :: ts1 =>
    let r := parseFactorF fuel ts1
    (optNeg r.1, r.2)
  | fuel + 1, Tok.op '+' :: ts1 => parseFactorF fuel ts1
  | _ + 1, ts => (none, ts)

end

/-- `safeArith(expr)` (lines 337-396): NaN unless the tokenizer accepts the
whole input, the parse consumes every token, and the computed value is not
NaN. -/
def safeArith (s : String) : Option JRat :=
  match tokenizeL s.data with
  | none => none
  | some ts =>
    if (parseExprF (2 * ts.length + 2) ts).2.isEmpty then (parseExprF (2 * ts.length + 2) ts).1
    else none

/-- The token remainder left by the parse, when the tokenizer accepts the
input at all. -/
def parseLeftover (s : String) : Option (List Tok) :=
  (tokenizeL s.data).map (fun ts => (parseExprF (2 * ts.length + 2) ts).2)

/-! ### Claim C2 -/

theorem tokenizeAux_none_of_bad (fuel : Nat) (l : List Char) (c : Char)
    (hc : c ∈ l) (hbad : isArithChar c = false) : tokenizeAux fuel l = none := by
  have hw : jsWs c = false := by
    unfold isArithChar at hbad
    rcases Bool.or_eq_false_iff.mp hbad with ⟨h1, _⟩
    exact Bool.or_eq_false_iff.mp h1 |>.1
  have hn : isNumChar c = false := by
    unfold isArithChar at hbad
    rcases Bool.or_eq_false_iff.mp hbad with ⟨h1, _⟩
    exact Bool.or_eq_false_iff.mp h1 |>.2
  have ho : isArithOpChar c = false := by
    unfold isArithChar at hbad
    exact (Bool.or_eq_false_iff.mp hbad).2
  induction fuel generalizing l with
  | zero => rfl
  | succ fuel ih =>
    cases l with
    | nil => cases hc
    | cons d rest =>
      rcases List.mem_cons.mp hc with he | hm
      · subst he
        simp [tokenizeAux, hw, hn, ho]
      · by_cases hwd : jsWs d = true
        · simp [tokenizeAux, hwd, ih rest hm]
        · by_cases hnd : isNumChar d = true
          · have hcm : c ∈ rest.dropWhile isNumChar := by
              have hsplit := List.takeWhile_append_dropWhile isNumChar rest
              rcases List.mem_append.mp (by rw [hsplit]; exact hm) with h1 | h1
              · exact absurd (List.mem_takeWhile_imp h1) (by rw [hn]; simp)
              · exact h1
            simp [tokenizeAux, hwd, hnd, ih _ hcm]
          · by_cases hod : isArithOpChar d = true
            · simp [tokenizeAux, hwd, hnd, hod, ih rest hm]
            · simp [tokenizeAux, hwd, hnd, hod]

/-- C2 counterexample: `safeArith "2+"` is NaN although every character of
`"2+"` lies in the arithmetic character set, the parse consumes the whole
token stream (no trailing tokens), and no division or modulo occurs — the
claim's "exactly when" enumeration misses parses that fail inside the
grammar (here a missing right operand). -/
theorem safeArith_charact_cex :
    safeArith "2+" = none
    ∧ ("2+" : String).data.all isArithChar = true
    ∧ parseLeftover "2+" = some []
    ∧ ("2+" : String).data.contains '/' = false
    ∧ ("2+" : String).data.contains '%' = false := by decide

/-- C2 (amended): `safeArith` returns NaN whenever the input contains a
character outside the arithmetic set, and whenever the parse leaves
trailing unconsumed tokens; parses that fail inside the grammar and
division by zero also yield NaN, as in `"10 / 0"`; and the evaluator
implements the precedence grammar: `"2 + 3 * 4"` evaluates to 14 and
`"(1+2)*3"` to 9. -/
theorem safeArith_spec :
    (∀ s : String, s.data.all isArithChar = false → safeArith s = none)
    ∧ (∀ (s : String) (ts : List Tok), tokenizeL s.data = some ts →
        (parseExprF (2 * ts.length + 2) ts).2 ≠ [] → safeArith s = none)
    ∧ (safeArith "2 + 3 * 4").map JRat.toRat = some 14
    ∧ (safeArith "(1+2)*3").map JRat.toRat = some 9
    ∧ safeArith "10 / 0" = none := by
  refine ⟨?_, ?_, ?_, ?_, by decide⟩
  · intro s hall
    obtain ⟨c, hc, hbad⟩ := List.all_eq_false.mp hall
    unfold safeArith tokenizeL
    rw [tokenizeAux_none_of_bad _ _ c hc (by simpa using hbad)]
  · intro s ts hts hrest
    unfold safeArith
    rw [hts]
    show (if (parseExprF (2 * ts.length + 2) ts).2.isEmpty = true
          then (parseExprF (2 * ts.length + 2) ts).1 else none) = none
    rw [if_neg]
    intro he
    exact hrest (List.isEmpty_iff.mp he)
  · rw [show safeArith "2 + 3 * 4" = some ⟨14, 1⟩ from by decide]
    simp [JRat.toRat]
  · rw [show safeArith "(1+2)*3" = some ⟨9, 1⟩ from by decide]
    simp [JRat.toRat]

/-- Witness for C2: a bad character (`"a"`) and a trailing-token input
(`"1 2"`), instantiating the universally quantified conjuncts. -/
theorem safeArith_spec_witness :
    (("a" : String).data.all isArithChar = false ∧ safeArith "a" = none)
    ∧ (tokenizeL ("1 2" : String).data
         = some [Tok.num (some ⟨1, 1⟩), Tok.num (some ⟨2, 1⟩)]
       ∧ (parseExprF (2 * 2 + 2) [Tok.num (some ⟨1, 1⟩), Tok.num (some ⟨2, 1⟩)]).2 ≠ []
       ∧ safeArith "1 2" = none) := by
  refine ⟨⟨by decide, safeArith_spec.1 "a" (by decide)⟩, ⟨by decide, by decide, ?_⟩⟩
  exact safeArith_spec.2.1 "1 2" [Tok.num (some ⟨1, 1⟩), Tok.num (some ⟨2, 1⟩)]
    (by decide) (by decide)


/-! ## Expression evaluator (src/app.js lines 398-426) -/

/-- A JavaScript number produced by `Number()`: finite, `Infinity`, or
`-Infinity` (`none` at the `Option` level is NaN).  All finite values are
built with a positive denominator. -/
inductive JNum where
  | fin (q : JRat)
  | inf
  | ninf
deriving DecidableEq

/-- Value of a hexadecimal digit character. -/
def hexVal (c : Char) : Option Nat :=
  if 48 ≤ c.toNat ∧ c.toNat ≤ 57 then some (c.toNat - 48)
  else if 97 ≤ c.toNat ∧ c.toNat ≤ 102 then some (c.toNat - 87)
  else if 65 ≤ c.toNat ∧ c.toNat ≤ 70 then some (c.toNat - 55)
  else none

/-- A non-decimal integer literal body (after `0x`/`0o`/`0b`). -/
def parseRadix (base : Nat) (l : List Char) : Option JRat :=
  if l.isEmpty then none
  else
    (l.foldl
      (fun acc c =>
        match acc, hexVal c with
        | some n, some d => if d < base then some (n * base + d) else none
        | _, _ => none)
      (some 0)).map (fun n => ⟨n, 1⟩)

/-- The exponent part `(('e'|'E') ('+'|'-')? digits+)?` of a decimal
literal; the whole remainder must be consumed. -/
def parseExpPart : List Char → Option Int
  | [] => some 0
  | c :: r =>
    if c = 'e' ∨ c = 'E' then
      match r with
      | '+' :: d =>
        if !d.isEmpty && d.all isDigitChar then some (digitsVal d) else none
      | '-' :: d =>
        if !d.isEmpty && d.all isDigitChar then some (-(digitsVal d : Int)) else none
      | d => if !d.isEmpty && d.all isDigitChar then some (digitsVal d) else none
    else none

/-- Assemble mantissa/scale/exponent/sign into an exact rational. -/
def mkDec (mant : Nat) (k : Nat) (e : Int) (sg : Int) : JRat :=
  if 0 ≤ e then ⟨sg * mant * 10 ^ e.toNat, 10 ^ k⟩
  else ⟨sg * mant, 10 ^ k * 10 ^ (-e).toNat⟩

/-- The decimal branch of the `Number()` grammar:
`digits+ ('.' digits*)? exp?` or `'.' digits+ exp?`, entire input. -/
def parseDec (l : List Char) (sg : Int) : Option JRat :=
  let ip := l.takeWhile isDigitChar
  if ip.isEmpty then
    match l with
    | '.' :: r =>
      let fp := r.takeWhile isDigitChar
      if fp.isEmpty then none
      else (parseExpPart (r.dropWhile isDigitChar)).map
        (fun e => mkDec (digitsVal fp) fp.length e sg)
    | _ => none
  else
    match l.dropWhile isDigitChar with
    | '.' :: r =>
      let fp := r.takeWhile isDigitChar
      (parseExpPart (r.dropWhile isDigitChar)).map
        (fun e => mkDec (digitsVal ip * 10 ^ fp.length + digitsVal fp) fp.length e sg)
    | r => (parseExpPart r).map (fun e => mkDec (digitsVal ip) 0 e sg)

/-- The JavaScript `Number()` coercion on a string: trimmed; empty means 0;
`0x`/`0o`/`0b` radix literals; otherwise an optionally signed decimal
literal or `Infinity`; anything else is NaN (`none`). -/
def jsToNumber (s : String) : Option JNum :=
  let t := (jsTrim s).data
  if t.isEmpty then some (.fin ⟨0, 1⟩)
  else if t.take 2 = ['0', 'x'] ∨ t.take 2 = ['0', 'X'] then
    (parseRadix 16 (t.drop 2)).map .fin
  else if t.take 2 = ['0', 'o'] ∨ t.take 2 = ['0', 'O'] then
    (parseRadix 8 (t.drop 2)).map .fin
  else if t.take 2 = ['0', 'b'] ∨ t.take 2 = ['0', 'B'] then
    (parseRadix 2 (t.drop 2)).map .fin
  else
    match t with
    | '+' :: r =>
      if r = "Infinity".data then some .inf else (parseDec r 1).map .fin
    | '-' :: r =>
      if r = "Infinity".data then some .ninf else (parseDec r (-1)).map .fin
    | r =>
      if r = "Infinity".data then some .inf else (parseDec r 1).map .fin

/-- Strict less-than on JavaScript numbers (denominators positive for
values built by `jsToNumber`). -/
def jnLt : JNum → JNum → Bool
  | .fin x, .fin y => decide (x.num * y.den < y.num * x.den)
  | .fin _, .inf => true
  | .fin _, .ninf => false
  | .inf, _ => false
  | .ninf, .ninf => false
  | .ninf, _ => true

/-- `Number(lv) < Number(rv)` — false whenever either side is NaN. -/
def jnumLtB : Option JNum → Option JNum → Bool
  | some a, some b => jnLt a b
  | _, _ => false

/-- `>`: false whenever either side is NaN. -/
def jnumGtB : Option JNum → Option JNum → Bool
  | some a, some b => jnLt b a
  | _, _ => false

/-- `<=`: for non-NaN numbers `a <= b` is `¬(b < a)`; NaN makes it false. -/
def jnumLeB : Option JNum → Option JNum → Bool
  | some a, some b => !jnLt b a
  | _, _ => false

/-- `>=`: false whenever either side is NaN. -/
def jnumGeB : Option JNum → Option JNum → Bool
  | some a, some b => !jnLt a b
  | _, _ => false

/-- `String(b)` on a boolean: `"true"` / `"false"` (lowercase). -/
def boolStr (b : Bool) : String := if b then "true" else "false"

/-- Case-insensitive glob matching for `-like` (`*` any sequence, `?` any
single character, anchored).  This models the constructed regular
expression for patterns without further regex metacharacters; full
JavaScript RegExp semantics are not modelled and no theorem here relies on
this branch. -/
def globMatch : List Char → List Char → Bool
  | [], [] => true
  | '*' :: p, t =>
    globMatch p t ||
      (match t with
       | [] => false
       | _ :: t2 => globMatch ('*' :: p) t2)
  | '?' :: p, _ :: t => globMatch p t
  | c :: p, d :: t => asciiLower c = asciiLower d && globMatch p t
  | _, _ => false
termination_by p t => (p.length, t.length)

/-- `lv.includes(rv)` — contiguous substring containment. -/
def listIncludes (sub : List Char) : List Char → Bool
  | [] => sub.isEmpty
  | c :: t => sub.isPrefixOf (c :: t) || listIncludes sub t

def strIncludes (s sub : String) : Bool := listIncludes sub.data s.data

/-- The switch body of the comparison branch (lines 412-423).  `-match` is
approximated by case-insensitive substring search (the unanchored regex
test with a metacharacter-free pattern); no theorem here relies on the
`-like`/`-notlike`/`-match` branches.  A `switch` miss falls through to
`return expr`. -/
def evalCompare (lv rv op fallback : String) : String :=
  if op = "-eq" then boolStr (lv = rv)
  else if op = "-ne" then boolStr (!(lv = rv))
  else if op = "-lt" then boolStr (jnumLtB (jsToNumber lv) (jsToNumber rv))
  else if op = "-gt" then boolStr (jnumGtB (jsToNumber lv) (jsToNumber rv))
  else if op = "-le" then boolStr (jnumLeB (jsToNumber lv) (jsToNumber rv))
  else if op = "-ge" then boolStr (jnumGeB (jsToNumber lv) (jsToNumber rv))
  else if op = "-like" then boolStr (globMatch rv.data lv.data)
  else if op = "-notlike" then boolStr (!globMatch rv.data lv.data)
  else if op = "-match" then boolStr (strIncludes (strLower lv) (strLower rv))
  else if op = "-contains" then boolStr (strIncludes lv rv)
  else fallback

/-- The comparison operators, in the alternation order of the regular
expression on line 407. -/
def cmpOps : List String :=
  ["-eq", "-ne", "-lt", "-gt", "-le", "-ge", "-like", "-notlike", "-match", "-contains"]

/-- `.` of the regular expression: any character except a line terminator. -/
def dotOk (c : Char) : Bool := !(c = '\n' ∨ c = '\r' ∨ c = '\u2028' ∨ c = '\u2029')

/-- Backtracking of the `\s*` before the final `(.+)$`: drop the longest
whitespace prefix (of length at most `k`) that leaves a nonempty remainder
free of line terminators. -/
def findRightAux : Nat → List Char → Option (List Char)
  | k, after =>
    if !(after.drop k).isEmpty && (after.drop k).all dotOk then some (after.drop k)
    else
      match k with
      | 0 => none
      | k2 + 1 => findRightAux k2 after

/-- Try the operator alternatives, in order, at a fixed position. -/
def tryOps : List String → List Char → Option (String × List Char)
  | [], _ => none
  | op :: more, q =>
    if ((q.take op.length).map asciiLower = op.data) then
      match findRightAux ((q.drop op.length).takeWhile jsWs).length (q.drop op.length) with
      | some r => some (op, r)
      | none => tryOps more q
    else tryOps more q

/-- Match `\s*(-eq|…|-contains)\s*(.+)$` at the current split position.
Operators begin with `-`, which is not whitespace, so the first `\s*` is
exactly the maximal whitespace run. -/
def matchOpsAt (rest : List Char) : Option (String × List Char) :=
  tryOps cmpOps (rest.dropWhile jsWs)

/-- The scan of `^(.+?)\s*(OPS)\s*(.+)$/i`: the lazy left group grows one
(non-line-terminator) character at a time until the remainder matches. -/
def cmpScan : List Char → List Char → Option (List Char × String × List Char)
  | _, [] => none
  | left, c :: rest =>
    if dotOk c then
      match matchOpsAt rest with
      | some (op, right) => some (left ++ [c], op, right)
      | none => cmpScan (left ++ [c]) rest
    else none

/-- The comparison match of line 407: left operand, canonical operator,
right operand. -/
def cmpParse (s : String) : Option (String × String × String) :=
  (cmpScan [] s.data).map (fun r => (⟨r.1⟩, r.2.1, ⟨r.2.2⟩))

/-- `String(n)` on an arithmetic result: exact for integer values; the
shortest-round-trip decimal formatting of non-integral doubles is
approximated by fraction notation (no theorem here evaluates this). -/
def jsNumToString (q : JRat) : String :=
  if q.den = 1 then toString q.num
  else toString q.num ++ "/" ++ toString q.den

/-- `evalExpression(expr)` (lines 399-426): expand variables over the
trimmed text; if the text is entirely arithmetic characters and evaluates
to a number, return it stringified; else try the comparison match; else
return the text unchanged. -/
def evalExpression (env : Env) (expr : String) : String :=
  match (if !(expandVariables env (jsTrim expr)).data.isEmpty
            && (expandVariables env (jsTrim expr)).data.all isArithChar
         then safeArith (expandVariables env (jsTrim expr)) else none) with
  | some n => jsNumToString n
  | none =>
    match cmpParse (expandVariables env (jsTrim expr)) with
    | some (l, op, r) =>
      evalCompare (stripQuotes (jsTrim l)) (stripQuotes (jsTrim r)) op
        (expandVariables env (jsTrim expr))
    | none => expandVariables env (jsTrim expr)

/-! ### Claim C3 -/

theorem arithChar_lower_ne (b : Char) (h : isArithChar b = true) :
    asciiLower b ≠ 'l' ∧ asciiLower b ≠ 'g' := by
  unfold isArithChar at h
  rcases Bool.or_eq_true_iff.mp h with h1 | hop
  · rcases Bool.or_eq_true_iff.mp h1 with hws | hnum
    · unfold jsWs at hws
      have hmem : b ∈ wsList := by
        simpa [List.contains] using hws
      unfold wsList at hmem
      fin_cases hmem <;> exact ⟨by decide, by decide⟩
    · unfold isNumChar at hnum
      rcases Bool.or_eq_true_iff.mp hnum with hdig | hdot
      · unfold isDigitChar at hdig
        simp only [Bool.and_eq_true, decide_eq_true_eq] at hdig
        have hfix : asciiLower b = b := by
          unfold asciiLower
          rw [if_neg (by omega)]
        constructor <;> rw [hfix] <;> intro he <;> subst he <;>
          exact absurd hdig (by decide)
      · simp only [decide_eq_true_eq] at hdot
        subst hdot
        exact ⟨by decide, by decide⟩
  · unfold isArithOpChar at hop
    have hmem : b ∈ ['+', '-', '*', '/', '%', '(', ')'] := by
      simpa [List.contains] using hop
    fin_cases hmem <;> exact ⟨by decide, by decide⟩

theorem tryOps_sound (ops : List String) (q : List Char) (op : String) (r : List Char)
    (h : tryOps ops q = some (op, r)) :
    op ∈ ops ∧ (q.take op.length).map asciiLower = op.data := by
  induction ops with
  | nil => simp [tryOps] at h
  | cons o more ih =>
    unfold tryOps at h
    split at h
    · rename_i hmatch
      split at h
      · rename_i heq
        injection h with h1
        injection h1 with ho hr
        subst ho
        exact ⟨List.mem_cons_self _ _, hmatch⟩
      · have := ih h
        exact ⟨List.mem_cons_of_mem _ this.1, this.2⟩
    · have := ih h
      exact ⟨List.mem_cons_of_mem _ this.1, this.2⟩

theorem cmpScan_sound (rest left : List Char) (l : List Char) (op : String) (r : List Char)
    (h : cmpScan left rest = some (l, op, r)) :
    ∃ sub : List Char, (∀ x, x ∈ sub → x ∈ rest) ∧ matchOpsAt sub = some (op, r) := by
  induction rest generalizing left with
  | nil => simp [cmpScan] at h
  | cons c rest2 ih =>
    unfold cmpScan at h
    split at h
    · rename_i hdot
      cases hmo : matchOpsAt rest2 with
      | some pr =>
        rw [hmo] at h
        injection h with h1
        injection h1 with _ h2
        injection h2 with hop hr
        subst hop; subst hr
        exact ⟨rest2, fun x hx => List.mem_cons_of_mem _ hx, hmo⟩
      | none =>
        rw [hmo] at h
        obtain ⟨sub, hsub, hm⟩ := ih (left ++ [c]) h
        exact ⟨sub, fun x hx => List.mem_cons_of_mem _ (hsub x hx), hm⟩
    · simp at h

/-- Destructuring a three-character case-folded take. -/
theorem take3_map_second (q : List Char) (x y z : Char)
    (h : (q.take 3).map asciiLower = [x, y, z]) :
    ∃ b, b ∈ q ∧ asciiLower b = y := by
  match q with
  | [] => simp at h
  | [a] => simp at h
  | [a, b] => simp at h
  | a :: b :: c2 :: q2 =>
    refine ⟨b, List.mem_cons_of_mem _ (List.mem_cons_self _ _), ?_⟩
    simp [List.take] at h
    exact h.2.1

/-- A successful numeric-comparison parse forces a character outside the
arithmetic character set into the text (the letter of the operator), so the
arithmetic fast path cannot fire. -/
theorem cmpParse_numeric_bad_char (s : String) (l op r : String)
    (h : cmpParse s = some (l, op, r))
    (hop : op = "-lt" ∨ op = "-gt" ∨ op = "-le" ∨ op = "-ge") :
    ∃ c ∈ s.data, isArithChar c = false := by
  unfold cmpParse at h
  cases hscan : cmpScan [] s.data with
  | none => rw [hscan] at h; simp at h
  | some res =>
    rw [hscan] at h
    obtain ⟨lres, opres, rres⟩ := res
    have hmap : some ((⟨lres⟩ : String), opres, (⟨rres⟩ : String)) = some (l, op, r) := h
    injection hmap with h1
    injection h1 with hl h2
    injection h2 with hop2 hr
    obtain ⟨sub, hsub, hm⟩ := cmpScan_sound s.data [] lres opres rres hscan
    unfold matchOpsAt at hm
    have hops := tryOps_sound cmpOps (sub.dropWhile jsWs) opres rres hm
    have htake := hops.2
    rw [hop2] at htake
    have hlow : ∃ b, b ∈ sub.dropWhile jsWs ∧ (asciiLower b = 'l' ∨ asciiLower b = 'g') := by
      rcases hop with ho | ho | ho | ho <;> rw [ho] at htake
      · obtain ⟨b, hb, he⟩ := take3_map_second _ '-' 'l' 't' htake
        exact ⟨b, hb, Or.inl he⟩
      · obtain ⟨b, hb, he⟩ := take3_map_second _ '-' 'g' 't' htake
        exact ⟨b, hb, Or.inr he⟩
      · obtain ⟨b, hb, he⟩ := take3_map_second _ '-' 'l' 'e' htake
        exact ⟨b, hb, Or.inl he⟩
      · obtain ⟨b, hb, he⟩ := take3_map_second _ '-' 'g' 'e' htake
        exact ⟨b, hb, Or.inr he⟩
    obtain ⟨b, hbq, hblow⟩ := hlow
    have hbsub : b ∈ sub := (List.dropWhile_sublist jsWs (l := sub)).subset hbq
    refine ⟨b, hsub b hbsub, ?_⟩
    cases hg : isArithChar b
    · rfl
    · exfalso
      have hne := arithChar_lower_ne b hg
      rcases hblow with hbl | hbl
      · exact hne.1 hbl
      · exact hne.2 hbl


/-- C3 counterexample: on the comparison `"abc -lt xyz"` (both operands
non-numeric) the evaluator returns `"false"` — the lowercase JavaScript
boolean stringification `String(false)` — and not the string `"False"`
that the claim names. -/
theorem numeric_compare_cex :
    jsToNumber "abc" = none
    ∧ jsToNumber "xyz" = none
    ∧ evalExpression ⟨fun _ => none, "C:\\Users\\PSUser\\Desktop"⟩ "abc -lt xyz" = "false"
    ∧ evalExpression ⟨fun _ => none, "C:\\Users\\PSUser\\Desktop"⟩ "abc -lt xyz" ≠ "False" := by
  decide

/-- C3 (amended): whenever the expression parses as a `-lt`/`-gt`/`-le`/`-ge`
comparison whose trimmed, quote-stripped operands do not parse as numbers
(`Number()` yields NaN), `evalExpression` returns `"false"` — the lowercase
JavaScript stringification of the boolean, never a lexicographic result,
since NaN compared with anything is false. -/
theorem numeric_compare_nan (env : Env) (expr l op r : String)
    (hparse : cmpParse (expandVariables env (jsTrim expr)) = some (l, op, r))
    (hop : op = "-lt" ∨ op = "-gt" ∨ op = "-le" ∨ op = "-ge")
    (hl : jsToNumber (stripQuotes (jsTrim l)) = none)
    (hr : jsToNumber (stripQuotes (jsTrim r)) = none) :
    evalExpression env expr = "false" := by
  obtain ⟨c, hc, hbad⟩ := cmpParse_numeric_bad_char _ l op r hparse hop
  have hall : (expandVariables env (jsTrim expr)).data.all isArithChar = false := by
    rw [List.all_eq_false]
    exact ⟨c, hc, by rw [hbad]; simp⟩
  have harith : (if !(expandVariables env (jsTrim expr)).data.isEmpty
        && (expandVariables env (jsTrim expr)).data.all isArithChar
      then safeArith (expandVariables env (jsTrim expr)) else none) = none := by
    rw [hall]
    simp
  unfold evalExpression
  rw [harith, hparse]
  show evalCompare (stripQuotes (jsTrim l)) (stripQuotes (jsTrim r)) op
      (expandVariables env (jsTrim expr)) = "false"
  rcases hop with ho | ho | ho | ho <;> subst ho <;>
    simp [evalCompare, hl, hr, jnumLtB, jnumGtB, jnumLeB, jnumGeB, boolStr]

/-- Witness for C3: the concrete comparison `"abc -lt xyz"`. -/
theorem numeric_compare_nan_witness :
    cmpParse (expandVariables ⟨fun _ => none, "C:\\Users\\PSUser\\Desktop"⟩
        (jsTrim "abc -lt xyz")) = some ("abc", "-lt", "xyz")
    ∧ jsToNumber (stripQuotes (jsTrim "abc")) = none
    ∧ jsToNumber (stripQuotes (jsTrim "xyz")) = none
    ∧ evalExpression ⟨fun _ => none, "C:\\Users\\PSUser\\Desktop"⟩ "abc -lt xyz" = "false" := by
  refine ⟨by decide, by decide, by decide, ?_⟩
  exact numeric_compare_nan ⟨fun _ => none, "C:\\Users\\PSUser\\Desktop"⟩ "abc -lt xyz"
    "abc" "-lt" "xyz" (by decide) (Or.inl rfl) (by decide) (by decide)

end PSG
